import Mathlib

/-!
Verification of the Morpheus LLM node-graph execution engine against its
natural-language specification.

The repository's visible sources are the RAG example wiring
(`src/examples/llm/rag/run.py`: `RetrieverNode`, `RAGNode`, `_build_engine`,
the module-level `reset_event`) and two test files
(`src/tests/llm/task_handlers/test_simple_task_handler.py`,
`src/tests/llm/services/test_llm_service.py`).  The engine core itself
(`morpheus.llm`: `LLMContext`, `LLMEngine`, `LLMNode`, the scheduler, and
`SimpleTaskHandler`) is imported by those files but its code is not part of
the visible sources, so the core is modelled here from the specification
(each such definition carries a doc comment starting `Modelled from the
spec:`); the example wiring and the test expectations are embedded directly
from the sources.
-/

namespace Morpheus

/-- Values carried through a context: strings, numbers, lists (query strings,
embedding vectors, retrieved records) and named records (the merged outputs of
a composite node).  The spec leaves the value type implementation-defined
("list of strings, vectors, arbitrary records"). -/
inductive LLMVal where
  | vStr : String → LLMVal
  | vNat : Nat → LLMVal
  | vList : List LLMVal → LLMVal
  | vRecord : List (String × LLMVal) → LLMVal
deriving Repr

/-- Modelled from the spec: the error taxonomy of §7 (`GraphConstructionError`,
`UnresolvedInputError`, `DuplicateWriteError`, `NodeExecutionError`), plus
`RunCancelled` for the explicit cancellation token of design note §9. -/
inductive LLMError where
  | GraphConstructionError : String → LLMError
  | UnresolvedInputError : String → LLMError
  | DuplicateWriteError : String → LLMError
  | NodeExecutionError : String → LLMError
  | RunCancelled : LLMError
deriving Repr, DecidableEq

/-- Modelled from the spec: an input reference (§3) either names a sibling
node's output at the current graph level (written `"/name"` in the sources)
or an externally supplied input key (written without a slash, e.g. `"query"`,
resolved against the enclosing node's inputs or the task's seed). -/
inductive InputRef where
  | ext : String → InputRef
  | node : String → InputRef
deriving Repr, DecidableEq

/-- Modelled from the spec: the per-task Context (§3, §4.1) — a mapping from
name to value for one graph level, kept as an association list in write
order.  A name is "already written" when it occurs as a key. -/
abbrev Ctx := List (String × LLMVal)

/-- Look up a previously written value by name. -/
def ctxLookup (ctx : Ctx) (name : String) : Option LLMVal :=
  match ctx with
  | [] => none
  | (k, v) :: rest => if k = name then some v else ctxLookup rest name

/-- Membership of a name in the written set of a context. -/
def ctxWritten (ctx : Ctx) (name : String) : Bool :=
  ctx.any (fun p => p.1 = name)

/-- Modelled from the spec: `set_output` (§4.1) — writes exactly one value
under the executing node's own name; fails with `DuplicateWriteError` if the
name was already written in this run. -/
def set_output (ctx : Ctx) (nodeName : String) (v : LLMVal) :
    Except LLMError Ctx :=
  if ctxWritten ctx nodeName then
    .error (.DuplicateWriteError nodeName)
  else
    .ok (ctx ++ [(nodeName, v)])

/-- Modelled from the spec: `get_input` (§4.1) — returns the previously
stored value for an input reference; fails with `UnresolvedInputError` if the
referenced name was never written.  External references are resolved against
the enclosing environment `env`, sibling-node references against the current
level's context. -/
def get_input (env : Ctx) (ctx : Ctx) (r : InputRef) : Except LLMError LLMVal :=
  match r with
  | .ext k =>
    match ctxLookup env k with
    | some v => .ok v
    | none => .error (.UnresolvedInputError k)
  | .node m =>
    match ctxLookup ctx m with
    | some v => .ok v
    | none => .error (.UnresolvedInputError m)

/-- Resolve a list of input references in order (the node's declared input
slice). -/
def get_inputs (env : Ctx) (ctx : Ctx) : List InputRef → Except LLMError (List LLMVal)
  | [] => .ok []
  | r :: rs => do
    let v ← get_input env ctx r
    let vs ← get_inputs env ctx rs
    .ok (v :: vs)

/-- Modelled from the spec: the closed sum of node variants (design note §9) —
a leaf node with declared input names and an execute body (external calls are
the body's failure channel, `Except String`), or a composite node owning a
sub-graph of named children `(name, inputs, node, is_output)` in addition
order. -/
inductive LLMNode where
  | leaf : List String → (List LLMVal → Except String LLMVal) → LLMNode
  | comp : List (String × List InputRef × LLMNode × Bool) → LLMNode

/-- One entry of a graph level: `(name, inputs, node, is_output)`. -/
abbrev GraphEntry := String × List InputRef × LLMNode × Bool

def entryName (e : GraphEntry) : String := e.1

def entryInputs (e : GraphEntry) : List InputRef := e.2.1

def entryNode (e : GraphEntry) : LLMNode := e.2.2.1

def entryIsOut (e : GraphEntry) : Bool := e.2.2.2

/-- The declared input names of a node: a leaf declares them directly
(`get_input_names`); a composite exposes the external (non-sibling) input
keys its children reference, first occurrence first. -/
def leafInputNames (n : LLMNode) : List String :=
  match n with
  | .leaf names _ => names
  | .comp _ => []

/-- The sibling-node references (`"/name"`) among a list of input references. -/
def nodeRefs (inputs : List InputRef) : List String :=
  inputs.filterMap (fun r => match r with | .node m => some m | .ext _ => none)

/-- The external input keys (no leading slash) among a list of input
references. -/
def extRefs (inputs : List InputRef) : List String :=
  inputs.filterMap (fun r => match r with | .ext k => some k | .node _ => none)

/-- Modelled from the spec: the external input names a composite presents to
its parent — the distinct external keys referenced by its children, in first
occurrence order; the parent's wired inputs are bound to them positionally. -/
def compInputNames (children : List GraphEntry) : List String :=
  ((children.map (fun e => extRefs (entryInputs e))).flatten).dedup

/-- Does some already-added entry of `g` carry this name? -/
def containsName (g : List GraphEntry) (name : String) : Bool :=
  g.any (fun e => entryName e == name)

/-- Does an input reference resolve at construction time against the nodes
already added?  External keys are resolved at run time against the enclosing
environment and are always accepted here. -/
def resolvesIn (g : List GraphEntry) : InputRef → Bool
  | .ext _ => true
  | .node m => containsName g m

/-- Modelled from the spec: `add_node(name, inputs, node, is_output=false)`
(§4.3) — validates at construction time that the name is not a duplicate at
this level and that every sibling-node input reference resolves to a node
already added (forward references rejected); on success appends the entry. -/
def add_node (g : List GraphEntry) (name : String) (inputs : List InputRef)
    (n : LLMNode) (isOut : Bool := false) : Except LLMError (List GraphEntry) :=
  if containsName g name then
    .error (.GraphConstructionError ("duplicate node name: " ++ name))
  else if inputs.all (resolvesIn g) then
    .ok (g ++ [(name, inputs, n, isOut)])
  else
    .error (.GraphConstructionError ("unresolved input reference for node: " ++ name))

/-- The imperative view of `add_node`: on failure the graph object is left
exactly as it was (the error carries no partial mutation). -/
def try_add_node (g : List GraphEntry) (name : String) (inputs : List InputRef)
    (n : LLMNode) (isOut : Bool := false) :
    List GraphEntry × Option LLMError :=
  match add_node g name inputs n isOut with
  | .ok g' => (g', none)
  | .error e => (g, some e)

/-- Modelled from the spec: the scheduler's eligibility test (§4.4, glossary) —
an entry is eligible once every sibling-node reference among its declared
inputs has completed (is in `done`). -/
def eligible (done : List String) (e : GraphEntry) : Bool :=
  (nodeRefs (entryInputs e)).all (fun m => done.contains m)

/-- Modelled from the spec: Kahn-style rounds (§4.4) — each round launches all
currently-eligible remaining entries concurrently, awaits them, marks them
done, and recomputes; stops when no entry is eligible. -/
def kahnRounds : Nat → List String → List GraphEntry → List (List GraphEntry)
  | 0, _, _ => []
  | fuel + 1, done, remaining =>
    let elig := remaining.filter (eligible done)
    let rest := remaining.filter (fun e => !eligible done e)
    if elig.isEmpty then []
    else elig :: kahnRounds fuel (done ++ elig.map entryName) rest

/-- The rounds of one graph level, from scratch. -/
def rounds (entries : List GraphEntry) : List (List GraphEntry) :=
  kahnRounds entries.length [] entries

/-- The flattened, deterministic execution order of one graph level: rounds
concatenated, declaration order within a round (the spec's tie-break). -/
def schedule (entries : List GraphEntry) : List GraphEntry :=
  (rounds entries).flatten

/-- The round index in which a node name first completes, if it is scheduled
at all. -/
def roundOfAux : List (List GraphEntry) → String → Option Nat
  | [], _ => none
  | r :: rs, m =>
    if containsName r m then some 0 else (roundOfAux rs m).map (· + 1)

def roundOf (entries : List GraphEntry) (m : String) : Option Nat :=
  roundOfAux (rounds entries) m

/-- A node launched in round `i` starts at timestamp `2*i`. -/
def startTime (entries : List GraphEntry) (m : String) : Option Nat :=
  (roundOf entries m).map (fun i => 2 * i)

/-- A node launched in round `i` has completed (and written its output) by
timestamp `2*i + 1`, before any round `> i` starts. -/
def completionTime (entries : List GraphEntry) (m : String) : Option Nat :=
  (roundOf entries m).map (fun i => 2 * i + 1)

/-- Modelled from the spec: the merge step of a composite (§4.3) — only
output-flagged children's results survive into the composite's result;
internal-only children's outputs are discarded. -/
def mergeOutputs (children : List GraphEntry) (sctx : Ctx) : Ctx :=
  sctx.filter (fun p => children.any (fun e => entryIsOut e && (entryName e == p.1)))

/-- Execute one entry with a given sub-node executor: resolve the entry's
declared input slice, run the node's body, and write its single result under
the entry's own name via `set_output` (a failing body partially writes
nothing — all-or-nothing per node, §4.2). -/
def execEntryWith (execFn : String → List LLMVal → LLMNode → Except LLMError LLMVal)
    (env ctx : Ctx) (e : GraphEntry) : Except LLMError Ctx := do
  let vals ← get_inputs env ctx (entryInputs e)
  let v ← execFn (entryName e) vals (entryNode e)
  set_output ctx (entryName e) v

/-- Modelled from the spec: the executor walking one level's schedule (§4.4) —
entries run in schedule order; the first failure abandons every entry not yet
merged and propagates the error (fail-fast).  Returns the names of the
entries whose execution was started, in order, alongside the outcome. -/
def runSchedWith (execFn : String → List LLMVal → LLMNode → Except LLMError LLMVal)
    (env : Ctx) : List GraphEntry → Ctx → List String × Except LLMError Ctx
  | [], ctx => ([], .ok ctx)
  | e :: rest, ctx =>
    match execEntryWith execFn env ctx e with
    | .error err => ([entryName e], .error err)
    | .ok ctx' =>
      let (log, res) := runSchedWith execFn env rest ctx'
      (entryName e :: log, res)

/-- Modelled from the spec: `execute(context)` of a node (§4.2, §4.3), with a
fuel bound on nesting depth.  A leaf applies its body to the resolved input
values; a failure of the body (an external call raising) surfaces as
`NodeExecutionError` naming the node.  A composite binds its external input
names to the wired values positionally, runs its children by the schedule on
a fresh sub-context, and on success exposes only the output-flagged
children's results as its merged result; a child's error propagates
unchanged up the composite chain. -/
def execNode : Nat → String → List LLMVal → LLMNode → Except LLMError LLMVal
  | 0, name, _, _ => .error (.NodeExecutionError name)
  | fuel + 1, name, vals, n =>
    match n with
    | .leaf _ f =>
      match f vals with
      | .ok v => .ok v
      | .error _ => .error (.NodeExecutionError name)
    | .comp children =>
      let env := List.zip (compInputNames children) vals
      match (runSchedWith (execNode fuel) env (schedule children) []).2 with
      | .error err => .error err
      | .ok sctx => .ok (.vRecord (mergeOutputs children sctx))

/-- Execute one entry at a given fuel. -/
def execEntry (fuel : Nat) (env ctx : Ctx) (e : GraphEntry) : Except LLMError Ctx :=
  execEntryWith (execNode fuel) env ctx e

/-- Run one graph level: schedule its entries and execute them in order. -/
def execLevel (fuel : Nat) (env : Ctx) (entries : List GraphEntry) (ctx : Ctx) :
    List String × Except LLMError Ctx :=
  runSchedWith (execNode fuel) env (schedule entries) ctx

/-- A task record: the payload of one task as named columns (the dataframe
row-block of the sources, column-wise). -/
abbrev TaskRec := List (String × LLMVal)

/-- Modelled from the spec: a Task Handler (§4.5) — declares
`get_input_names` and converts its input slice plus the original task into
zero-or-more output tasks, as a pure function that cannot touch the Context. -/
structure LLMTaskHandler where
  get_input_names : List String
  try_handle : List LLMVal → TaskRec → List TaskRec

/-- Modelled from the spec and the repository's tests: `SimpleTaskHandler` —
constructed with optional output columns; `get_input_names` is the given
column list, or `["response"]` when none was given; it emits exactly one
output task, the original task's payload extended with its input values under
those column names. -/
def SimpleTaskHandler (output_columns : Option (List String) := none) : LLMTaskHandler :=
  { get_input_names := output_columns.getD ["response"]
    try_handle := fun vals task =>
      [task ++ List.zip (output_columns.getD ["response"]) vals] }

/-- Modelled from the spec: the Engine (§4.5) — one root composite level plus
task handlers registered with their wired inputs, in registration order. -/
structure LLMEngine where
  root : List GraphEntry
  handlers : List (List InputRef × LLMTaskHandler)

/-- Modelled from the spec: the handler stage of `run` (§4.5) — each handler
receives its declared input slice of the final context and the original task;
all emitted output tasks are concatenated in registration order.  The context
is only read, never written. -/
def runHandlers (env ctx : Ctx) (task : TaskRec) :
    List (List InputRef × LLMTaskHandler) → Except LLMError (List TaskRec)
  | [] => .ok []
  | (inputs, h) :: rest => do
    let vals ← get_inputs env ctx inputs
    let outs ← runHandlers env ctx task rest
    .ok (h.try_handle vals task ++ outs)

/-- Modelled from the source: the module-level `asyncio.Event()` named
`reset_event` at the top of `src/examples/llm/rag/run.py`, represented by its
is-set state (initially unset).  It is defined but never set, cleared or
awaited anywhere in the module. -/
def reset_event : Bool := false

/-- Modelled from the spec: `run` (§4.5, design note §9) — takes an explicit
cancellation token scoped to this one invocation; a set token stops the run
before the root executes.  Otherwise the root composite level runs to
completion, and on success every registered handler consumes the final
context.  The `resetFlag` argument threads the state of the module-level
reset event past the run, which never consults it. -/
def runEngine (cancel : Bool) (resetFlag : Bool) (fuel : Nat) (eng : LLMEngine)
    (env : Ctx) (task : TaskRec) : Except LLMError (Ctx × List TaskRec) :=
  if cancel then .error .RunCancelled
  else
    match (execLevel fuel env eng.root []).2 with
    | .error err => .error err
    | .ok ctx => do
      let outs ← runHandlers env ctx task eng.handlers
      .ok (ctx, outs)

/-- Embedded from the source (`run.py`, `RetrieverNode`): declares the single
input name `"query"`; `execute` takes the input strings, awaits the embedding
capability on them, awaits a similarity search on the vector-store capability
with fixed `k = 4`, and yields the retrieved records as its single output
(which the executor writes via `set_output`, returning the context). -/
def RetrieverNode (similarity_search : LLMVal → Nat → Except String LLMVal)
    (embedding : LLMVal → Except String LLMVal) : LLMNode :=
  .leaf ["query"] (fun inputs =>
    match inputs with
    | [input_strings] => do
      let embeddings ← embedding input_strings
      let results ← similarity_search embeddings 4
      .ok results
    | _ => .error "RetrieverNode expects exactly one input")

/-- Modelled from the spec: `PromptTemplateNode` (§4.6; its module is not
among the visible sources) — pure string/templated substitution over its
inputs, no I/O, so its body never fails. -/
def PromptTemplateNode (prompt : String)
    (template : String → List LLMVal → LLMVal) : LLMNode :=
  .leaf ["prompt_input"] (fun vals => .ok (template prompt vals))

/-- Modelled from the spec: `LLMGenerateNode` (§4.6, §6; its module is not
among the visible sources) — calls the external text-generation capability on
its input prompt. -/
def LLMGenerateNode (generate : List LLMVal → Except String LLMVal) : LLMNode :=
  .leaf ["prompt"] (fun vals => generate vals)

/-- Modelled from the spec: `ExtracterNode` (§6; its module is not among the
visible sources) — copies the task's seeded input column into the context
unchanged. -/
def ExtracterNode : LLMNode :=
  .leaf ["questions"] (fun vals =>
    match vals with
    | [v] => .ok v
    | _ => .error "ExtracterNode expects exactly one input")

/-- Embedded from the source (`run.py`, `RAGNode.__init__`): the three
`add_node` calls wiring the RAG composite — `"retriever"` with inputs
`["query"]`, then `"prompt"` with inputs `["/retriever"]`, then `"generate"`
with inputs `["/prompt"]` and `is_output=True`. -/
def buildRagChildren (similarity_search : LLMVal → Nat → Except String LLMVal)
    (embedding : LLMVal → Except String LLMVal) (prompt : String)
    (template : String → List LLMVal → LLMVal)
    (generate : List LLMVal → Except String LLMVal) :
    Except LLMError (List GraphEntry) := do
  let g ← add_node [] "retriever" [.ext "query"]
    (RetrieverNode similarity_search embedding)
  let g ← add_node g "prompt" [.node "retriever"]
    (PromptTemplateNode prompt template)
  let g ← add_node g "generate" [.node "prompt"]
    (LLMGenerateNode generate) true
  .ok g

/-- The RAG composite's children as the list the three successful `add_node`
calls produce. -/
def ragChildren (similarity_search : LLMVal → Nat → Except String LLMVal)
    (embedding : LLMVal → Except String LLMVal) (prompt : String)
    (template : String → List LLMVal → LLMVal)
    (generate : List LLMVal → Except String LLMVal) : List GraphEntry :=
  [("retriever", [.ext "query"], RetrieverNode similarity_search embedding, false),
   ("prompt", [.node "retriever"], PromptTemplateNode prompt template, false),
   ("generate", [.node "prompt"], LLMGenerateNode generate, true)]

/-- Embedded from the source (`run.py`, `RAGNode`): the composite node over
the three children wired in `__init__`. -/
def RAGNode (similarity_search : LLMVal → Nat → Except String LLMVal)
    (embedding : LLMVal → Except String LLMVal) (prompt : String)
    (template : String → List LLMVal → LLMVal)
    (generate : List LLMVal → Except String LLMVal) : LLMNode :=
  .comp (ragChildren similarity_search embedding prompt template generate)

/-- Embedded from the source (`run.py`, `_build_engine`): add `"extracter"`,
then add `"rag"` with inputs `["/extracter"]`, then register a
`SimpleTaskHandler` with inputs `["/rag"]`. -/
def build_engine (similarity_search : LLMVal → Nat → Except String LLMVal)
    (embedding : LLMVal → Except String LLMVal) (prompt : String)
    (template : String → List LLMVal → LLMVal)
    (generate : List LLMVal → Except String LLMVal) :
    Except LLMError LLMEngine := do
  let g ← add_node [] "extracter" [.ext "questions"] ExtracterNode
  let g ← add_node g "rag" [.node "extracter"]
    (RAGNode similarity_search embedding prompt template generate)
  .ok { root := g, handlers := [([.node "rag"], SimpleTaskHandler none)] }

/-- The engine root graph that `_build_engine` produces: `"extracter"` first,
then `"rag"` referencing `"/extracter"`. -/
def engineRoot (similarity_search : LLMVal → Nat → Except String LLMVal)
    (embedding : LLMVal → Except String LLMVal) (prompt : String)
    (template : String → List LLMVal → LLMVal)
    (generate : List LLMVal → Except String LLMVal) : List GraphEntry :=
  [("extracter", [.ext "questions"], ExtracterNode, false),
   ("rag", [.node "extracter"],
      RAGNode similarity_search embedding prompt template generate, false)]

/-- Graphs reachable by a sequence of successful `add_node` calls from the
empty level — exactly the levels a caller can construct. -/
inductive Built : List GraphEntry → Prop where
  | nil : Built []
  | snoc {g g' : List GraphEntry} {name : String} {inputs : List InputRef}
      {n : LLMNode} {isOut : Bool} :
      Built g → add_node g name inputs n isOut = .ok g' → Built g'

/-- The index of the first entry carrying a name (the length of the level if
absent). -/
def nameIdx : List GraphEntry → String → Nat
  | [], _ => 0
  | e :: rest, m => if entryName e == m then 0 else nameIdx rest m + 1

/-- A nonempty chain of input-reference edges between node names: one step
from a consumer entry to a producer it references, closed under
concatenation.  `RefPath g a a` for some `a` is exactly a cycle in the
reference graph of the level. -/
inductive RefPath (g : List GraphEntry) : String → String → Prop where
  | edge {a b : String} (e : GraphEntry) : e ∈ g → entryName e = a →
      b ∈ nodeRefs (entryInputs e) → RefPath g a b
  | trans {a b c : String} : RefPath g a b → RefPath g b c → RefPath g a c

/-- A dependency edge at one level: some entry named `c` declares a
sibling-node reference to `p` (the producer). -/
def EdgeTo (entries : List GraphEntry) (c p : String) : Prop :=
  ∃ e, e ∈ entries ∧ entryName e = c ∧ p ∈ nodeRefs (entryInputs e)

/-- The entries of one level carry pairwise-distinct names (the spec's
uniqueness invariant, enforced by `add_node`). -/
abbrev NamesNodup (g : List GraphEntry) : Prop := (g.map entryName).Nodup

/-- Stub vector-store capability for concrete witnesses: records the `k`
argument as its result. -/
def stubSearch : LLMVal → Nat → Except String LLMVal := fun _ k => .ok (.vNat k)

/-- Stub embedding capability for concrete witnesses: the identity. -/
def stubEmbed : LLMVal → Except String LLMVal := fun v => .ok v

/-- Stub prompt template for concrete witnesses. -/
def stubTemplate : String → List LLMVal → LLMVal :=
  fun _ _ => .vStr "Q: hello CTX: doc1"

/-- Stub text-generation capability for concrete witnesses. -/
def stubGenerate : List LLMVal → Except String LLMVal :=
  fun _ => .ok (.vStr "generated-answer")

/-- The spec's end-to-end scenario nodes (§8): node A returns `["doc1"]`,
node B's external call raises, node C returns `"generated-answer"`. -/
def nodeA : LLMNode := .leaf ["query"] (fun _ => .ok (.vList [.vStr "doc1"]))

def nodeB : LLMNode := .leaf ["a"] (fun _ => .error "external call raised")

def nodeC : LLMNode := .leaf ["b"] (fun _ => .ok (.vStr "generated-answer"))

/-- The spec's failure-scenario level: `A → B → C` with only `C` flagged as
output and `B` failing. -/
def chainABC : List GraphEntry :=
  [("A", [.ext "query"], nodeA, false),
   ("B", [.node "A"], nodeB, false),
   ("C", [.node "B"], nodeC, true)]

/-! ### Helper lemmas -/

theorem ctxWritten_false_iff (ctx : Ctx) (name : String) :
    ctxWritten ctx name = false ↔ ∀ p ∈ ctx, p.1 ≠ name := by
  simp [ctxWritten, List.any_eq_true]

theorem ctxLookup_append_self (ctx : Ctx) (name : String) (v : LLMVal)
    (h : ctxWritten ctx name = false) :
    ctxLookup (ctx ++ [(name, v)]) name = some v := by
  induction ctx with
  | nil => simp [ctxLookup]
  | cons p rest ih =>
    rw [ctxWritten_false_iff] at h
    have hp : p.1 ≠ name := h p (List.mem_cons_self p rest)
    have hrest : ctxWritten rest name = false := by
      rw [ctxWritten_false_iff]
      exact fun q hq => h q (List.mem_cons_of_mem p hq)
    simpa [ctxLookup, hp] using ih hrest

/-! ### C10 -/

/-- C10: `SimpleTaskHandler` constructed with no output columns reports
`get_input_names() = ["response"]`, and constructed with an explicit list of
output columns it reports exactly that list, in order. -/
theorem simple_task_handler_input_names :
    (SimpleTaskHandler none).get_input_names = ["response"] ∧
    ∀ cols : List String, (SimpleTaskHandler (some cols)).get_input_names = cols :=
  ⟨rfl, fun _ => rfl⟩

/-! ### C4 -/

/-- C4: within one run, `set_output` writes exactly one value under the
executing node's own name (the context grows by exactly that one binding,
which was not previously written and is readable afterwards); it fails with
`DuplicateWriteError` if that name was already written in the same run; and a
node that wrote no output when one is required is surfaced on read as
`UnresolvedInputError`, not silently ignored. -/
theorem set_output_write_once :
    (∀ ctx name v ctx', set_output ctx name v = .ok ctx' →
        ctx' = ctx ++ [(name, v)] ∧ ctxWritten ctx name = false ∧
        ctxLookup ctx' name = some v) ∧
    (∀ ctx name v, ctxWritten ctx name = true →
        set_output ctx name v = .error (.DuplicateWriteError name)) ∧
    (∀ env ctx m, ctxLookup ctx m = none →
        get_input env ctx (.node m) = .error (.UnresolvedInputError m)) := by
  refine ⟨fun ctx name v ctx' h => ?_, fun ctx name v h => ?_, fun env ctx m h => ?_⟩
  · by_cases hw : ctxWritten ctx name
    · simp [set_output, hw] at h
    · simp only [set_output, hw, if_false, Bool.false_eq_true] at h
      cases h
      exact ⟨rfl, by simpa using hw, ctxLookup_append_self ctx name v (by simpa using hw)⟩
  · simp [set_output, h]
  · simp [get_input, h]

/-- Witness for C4 at concrete inputs. -/
theorem set_output_write_once_witness :
    ([("A", LLMVal.vNat 1)] = ([] : Ctx) ++ [("A", LLMVal.vNat 1)] ∧
      ctxWritten [] "A" = false ∧
      ctxLookup [("A", LLMVal.vNat 1)] "A" = some (LLMVal.vNat 1)) ∧
    set_output [("A", LLMVal.vNat 1)] "A" (LLMVal.vNat 2)
      = .error (.DuplicateWriteError "A") ∧
    get_input [] [] (.node "B") = .error (.UnresolvedInputError "B") :=
  ⟨set_output_write_once.1 [] "A" (LLMVal.vNat 1) [("A", LLMVal.vNat 1)] rfl,
   set_output_write_once.2.1 [("A", LLMVal.vNat 1)] "A" (LLMVal.vNat 2) rfl,
   set_output_write_once.2.2 [] [] "B" rfl⟩

/-! ### C9 -/

/-- C9: cancellation of a run is signalled by the explicit token passed into
`run`, scoped to that single invocation (a set token yields `RunCancelled`
for exactly that call); the run's behaviour never depends on the
process-wide mutable reset flag — in particular, threading the example
module's `reset_event` state changes nothing against any other flag value. -/
theorem run_cancellation_token_scoped :
    (∀ cancel r₁ r₂ fuel eng env task,
        runEngine cancel r₁ fuel eng env task = runEngine cancel r₂ fuel eng env task) ∧
    (∀ r fuel eng env task, runEngine true r fuel eng env task = .error .RunCancelled) ∧
    (∀ cancel b fuel eng env task,
        runEngine cancel reset_event fuel eng env task
          = runEngine cancel b fuel eng env task) :=
  ⟨fun _ _ _ _ _ _ _ => rfl, fun _ _ _ _ _ => rfl, fun _ _ _ _ _ _ => rfl⟩

/-! ### C5 -/

/-- C5: the retrieval node declares exactly the input name `"query"`; for
every execution it first awaits the external embedding capability on its
input strings, then awaits a similarity search on the vector-store capability
with the fixed result count `k = 4`, and the executor writes the retrieved
records as its single output under the node's name via `set_output`,
returning the extended context. -/
theorem retriever_node_contract :
    (∀ s e, leafInputNames (RetrieverNode s e) = ["query"]) ∧
    (∀ s e fuel env ctx nm isOut q emb res,
        ctxLookup env "query" = some q →
        e q = .ok emb →
        s emb 4 = .ok res →
        ctxWritten ctx nm = false →
        execEntry (fuel + 1) env ctx (nm, [.ext "query"], RetrieverNode s e, isOut)
          = .ok (ctx ++ [(nm, res)])) := by
  refine ⟨fun _ _ => rfl, fun s e fuel env ctx nm isOut q emb res hq he hs hw => ?_⟩
  simp [execEntry, execEntryWith, get_inputs, get_input, hq, entryInputs, entryName,
    entryNode, RetrieverNode, execNode, he, hs, set_output, hw, Bind.bind, Except.bind]

/-- Witness for C5 at concrete stub capabilities. -/
theorem retriever_node_contract_witness :
    leafInputNames (RetrieverNode (fun _ k => .ok (.vNat k)) (fun v => .ok v)) = ["query"] ∧
    execEntry 1 [("query", LLMVal.vStr "hello")] [] ("retriever", [.ext "query"],
        RetrieverNode (fun _ k => .ok (.vNat k)) (fun v => .ok v), false)
      = .ok [("retriever", LLMVal.vNat 4)] :=
  ⟨retriever_node_contract.1 (fun _ k => .ok (.vNat k)) (fun v => .ok v),
   retriever_node_contract.2 (fun _ k => .ok (.vNat k)) (fun v => .ok v) 0
     [("query", LLMVal.vStr "hello")] [] "retriever" false (LLMVal.vStr "hello")
     (LLMVal.vStr "hello") (LLMVal.vNat 4) rfl rfl rfl rfl⟩

/-! ### C8 -/

/-- C8: a task handler declaring one input name and mapping its value 1:1
onto an output record emits, given a final context containing that value,
exactly one output task equal to the record derived from that value; and the
handler stage never mutates the Context — the engine's run returns the final
context exactly as the root level produced it, alongside the handlers'
outputs. -/
theorem task_handler_maps_one_to_one :
    (∀ v env ctx task col,
        ctxLookup ctx col = some v →
        runHandlers env ctx task [([.node col], SimpleTaskHandler (some [col]))]
          = .ok [task ++ [(col, v)]]) ∧
    (∀ flag fuel eng env task log ctx outs,
        execLevel fuel env eng.root [] = (log, .ok ctx) →
        runHandlers env ctx task eng.handlers = .ok outs →
        runEngine false flag fuel eng env task = .ok (ctx, outs)) := by
  refine ⟨fun v env ctx task col h => ?_, fun flag fuel eng env task log ctx outs h₁ h₂ => ?_⟩
  · simp [runHandlers, get_inputs, get_input, h, SimpleTaskHandler, Bind.bind, Except.bind]
  · simp [runEngine, h₁, h₂, Bind.bind, Except.bind]

/-- Witness for C8 at the spec's end-to-end scenario context. -/
theorem task_handler_maps_one_to_one_witness :
    runHandlers [] [("answer", LLMVal.vStr "generated-answer")] [("q", LLMVal.vNat 0)]
        [([.node "answer"], SimpleTaskHandler (some ["answer"]))]
      = .ok [[("q", LLMVal.vNat 0), ("answer", LLMVal.vStr "generated-answer")]] ∧
    runEngine false false 1
        { root := [], handlers := [] } [("answer", LLMVal.vStr "generated-answer")]
        [("q", LLMVal.vNat 0)]
      = .ok ([], []) :=
  ⟨task_handler_maps_one_to_one.1 (LLMVal.vStr "generated-answer") []
      [("answer", LLMVal.vStr "generated-answer")] [("q", LLMVal.vNat 0)] "answer" rfl,
   task_handler_maps_one_to_one.2 false 1 { root := [], handlers := [] }
      [("answer", LLMVal.vStr "generated-answer")] [("q", LLMVal.vNat 0)] [] [] [] rfl rfl⟩

/-! ### C7 -/

/-- C7: `add_node(name, inputs, node, is_output=false)` requires at
construction time that every sibling-node input reference resolves to a node
already added (forward references are rejected with a construction error);
the example wiring satisfies this — `RAGNode.__init__` adds `"retriever"`
before `"prompt"` before `"generate"`, and `_build_engine` adds `"extracter"`
before the `"rag"` node referencing `"/extracter"` — so both constructions
succeed. -/
theorem add_node_rejects_forward_references :
    (∀ g name inputs n isOut m,
        InputRef.node m ∈ inputs →
        containsName g m = false →
        ∃ msg, add_node g name inputs n isOut = .error (.GraphConstructionError msg)) ∧
    (∀ s e prompt t gen,
        buildRagChildren s e prompt t gen = .ok (ragChildren s e prompt t gen)) ∧
    (∀ s e prompt t gen,
        build_engine s e prompt t gen
          = .ok { root := engineRoot s e prompt t gen,
                  handlers := [([.node "rag"], SimpleTaskHandler none)] }) := by
  refine ⟨fun g name inputs n isOut m hm hc => ?_, fun _ _ _ _ _ => rfl, fun _ _ _ _ _ => rfl⟩
  have hall : inputs.all (resolvesIn g) = false := by
    rw [List.all_eq_false]
    exact ⟨.node m, hm, by simp [resolvesIn, hc]⟩
  by_cases hdup : containsName g name
  · exact ⟨"duplicate node name: " ++ name, by simp [add_node, hdup]⟩
  · exact ⟨"unresolved input reference for node: " ++ name,
      by simp [add_node, hdup, hall]⟩

/-- Witness for C7: a forward reference to a not-yet-added node is rejected,
at a concrete input. -/
theorem add_node_rejects_forward_references_witness :
    InputRef.node "later" ∈ [InputRef.node "later"] ∧
    containsName [] "later" = false ∧
    ∃ msg, add_node [] "first" [InputRef.node "later"] ExtracterNode false
        = .error (.GraphConstructionError msg) :=
  ⟨List.mem_singleton.mpr rfl, rfl,
   add_node_rejects_forward_references.1 [] "first" [InputRef.node "later"]
     ExtracterNode false "later" (List.mem_singleton.mpr rfl) rfl⟩

/-! ### C6 -/

/-- C6: when a composite node's execute returns, only the results of children
flagged `is_output` survive into the value merged into the parent context
under the composite's own name; in the RAG composite (where only
`"generate"` is flagged) the outputs of the internal-only children
`"retriever"` and `"prompt"` are discarded — the merged value is exactly the
`"generate"` record and the parent context gains exactly the composite's own
binding. -/
theorem composite_merges_only_output_children :
    (∀ children sctx k v, (k, v) ∈ mergeOutputs children sctx →
        ∃ e, e ∈ children ∧ entryIsOut e = true ∧ entryName e = k) ∧
    (∀ s e prompt t g fuel q emb res gv,
        e q = .ok emb →
        s emb 4 = .ok res →
        g [t prompt [res]] = .ok gv →
        execNode (fuel + 2) "rag" [q] (RAGNode s e prompt t g)
          = .ok (.vRecord [("generate", gv)])) ∧
    (∀ s e prompt t g fuel env ctx nm isOut q emb res gv,
        ctxLookup env "query" = some q →
        e q = .ok emb →
        s emb 4 = .ok res →
        g [t prompt [res]] = .ok gv →
        ctxWritten ctx nm = false →
        execEntry (fuel + 2) env ctx (nm, [.ext "query"], RAGNode s e prompt t g, isOut)
          = .ok (ctx ++ [(nm, .vRecord [("generate", gv)])])) := by
  refine ⟨fun children sctx k v hm => ?_,
    fun s e prompt t g fuel q emb res gv he hs hg => ?_,
    fun s e prompt t g fuel env ctx nm isOut q emb res gv hq he hs hg hw => ?_⟩
  · rw [mergeOutputs, List.mem_filter] at hm
    obtain ⟨-, hp⟩ := hm
    rw [List.any_eq_true] at hp
    obtain ⟨e, he, hcond⟩ := hp
    rw [Bool.and_eq_true] at hcond
    exact ⟨e, he, hcond.1, by simpa using hcond.2⟩
  · simp [RAGNode, ragChildren, execNode, schedule, rounds, kahnRounds, eligible,
      nodeRefs, entryInputs, entryName, entryNode, compInputNames, extRefs,
      runSchedWith, execEntryWith, get_inputs, get_input, ctxLookup,
      RetrieverNode, PromptTemplateNode, LLMGenerateNode, he, hs, hg,
      set_output, ctxWritten, mergeOutputs, entryIsOut, Bind.bind, Except.bind]
  · simp [execEntry, execEntryWith, get_inputs, get_input, hq, entryInputs,
      entryName, entryNode, set_output, hw, Bind.bind, Except.bind,
      RAGNode, ragChildren, execNode, schedule, rounds, kahnRounds, eligible,
      nodeRefs, compInputNames, extRefs, runSchedWith, ctxLookup,
      RetrieverNode, PromptTemplateNode, LLMGenerateNode, he, hs, hg,
      ctxWritten, mergeOutputs, entryIsOut]
    intro x hx
    have := (ctxWritten_false_iff ctx nm).mp hw (nm, x) hx
    simp at this

/-- Witness for C6 at concrete stub capabilities: the RAG composite's merged
value holds only the `"generate"` record; `"retriever"` and `"prompt"` do not
appear at the parent level. -/
theorem composite_merges_only_output_children_witness :
    (∃ e, e ∈ ragChildren stubSearch stubEmbed "" stubTemplate stubGenerate ∧
        entryIsOut e = true ∧ entryName e = "generate") ∧
    execNode 2 "rag" [LLMVal.vStr "hello"]
        (RAGNode stubSearch stubEmbed "" stubTemplate stubGenerate)
      = .ok (.vRecord [("generate", LLMVal.vStr "generated-answer")]) ∧
    execEntry 2 [("query", LLMVal.vStr "hello")] []
        ("rag", [.ext "query"], RAGNode stubSearch stubEmbed "" stubTemplate stubGenerate, true)
      = .ok [("rag", .vRecord [("generate", LLMVal.vStr "generated-answer")])] :=
  ⟨composite_merges_only_output_children.1
      (ragChildren stubSearch stubEmbed "" stubTemplate stubGenerate)
      [("generate", LLMVal.vStr "generated-answer")]
      "generate" (LLMVal.vStr "generated-answer")
      (show _ ∈ mergeOutputs _ _ from
        (by rfl : mergeOutputs (ragChildren stubSearch stubEmbed "" stubTemplate stubGenerate)
            [("generate", LLMVal.vStr "generated-answer")]
          = [("generate", LLMVal.vStr "generated-answer")]) ▸ List.mem_singleton.mpr rfl),
   composite_merges_only_output_children.2.1 stubSearch stubEmbed "" stubTemplate
      stubGenerate 0 (LLMVal.vStr "hello") (LLMVal.vStr "hello") (LLMVal.vNat 4)
      (LLMVal.vStr "generated-answer") rfl rfl rfl,
   composite_merges_only_output_children.2.2 stubSearch stubEmbed "" stubTemplate
      stubGenerate 0 [("query", LLMVal.vStr "hello")] [] "rag" true
      (LLMVal.vStr "hello") (LLMVal.vStr "hello") (LLMVal.vNat 4)
      (LLMVal.vStr "generated-answer") rfl rfl rfl rfl rfl⟩

/-! ### C3 -/

theorem containsName_iff (g : List GraphEntry) (m : String) :
    containsName g m = true ↔ ∃ e, e ∈ g ∧ entryName e = m := by
  simp [containsName, List.any_eq_true]

theorem mem_nodeRefs_iff (inputs : List InputRef) (m : String) :
    m ∈ nodeRefs inputs ↔ InputRef.node m ∈ inputs := by
  simp only [nodeRefs, List.mem_filterMap]
  constructor
  · rintro ⟨r, hr, hm⟩
    cases r with
    | ext k => simp at hm
    | node n => simp at hm; cases hm; exact hr
  · intro h
    exact ⟨.node m, h, rfl⟩

theorem add_node_ok_elim {g g' : List GraphEntry} {name : String}
    {inputs : List InputRef} {n : LLMNode} {isOut : Bool}
    (h : add_node g name inputs n isOut = .ok g') :
    containsName g name = false ∧ inputs.all (resolvesIn g) = true ∧
      g' = g ++ [(name, inputs, n, isOut)] := by
  by_cases hdup : containsName g name
  · simp [add_node, hdup] at h
  · by_cases hall : inputs.all (resolvesIn g)
    · simp only [add_node, hdup, hall, Bool.false_eq_true, if_false, if_true] at h
      cases h
      exact ⟨by simpa using hdup, hall, rfl⟩
    · simp [add_node, hdup, hall] at h

theorem containsName_append (g : List GraphEntry) (l : List GraphEntry) (m : String)
    (h : containsName g m = true) : containsName (g ++ l) m = true := by
  rw [containsName_iff] at h ⊢
  obtain ⟨e, he, hn⟩ := h
  exact ⟨e, List.mem_append_left l he, hn⟩

theorem nameIdx_append_of_contains (g l : List GraphEntry) (m : String)
    (h : containsName g m = true) : nameIdx (g ++ l) m = nameIdx g m := by
  induction g with
  | nil => simp [containsName] at h
  | cons e rest ih =>
    by_cases he : entryName e == m
    · simp [nameIdx, he]
    · have hr : containsName rest m = true := by
        simp only [containsName, List.any_cons, Bool.or_eq_true] at h
        rcases h with h | h
        · exact absurd h (by simpa using he)
        · exact h
      simp [nameIdx, he, ih hr]

theorem nameIdx_lt_length (g : List GraphEntry) (m : String)
    (h : containsName g m = true) : nameIdx g m < g.length := by
  induction g with
  | nil => simp [containsName] at h
  | cons e rest ih =>
    by_cases he : entryName e == m
    · simp [nameIdx, he]
    · have hr : containsName rest m = true := by
        simp only [containsName, List.any_cons, Bool.or_eq_true] at h
        rcases h with h | h
        · exact absurd h (by simpa using he)
        · exact h
      simpa [nameIdx, he] using Nat.succ_lt_succ (ih hr)

theorem nameIdx_append_of_not_contains (g l : List GraphEntry) (m : String)
    (h : containsName g m = false) :
    nameIdx (g ++ l) m = g.length + nameIdx l m := by
  induction g with
  | nil => simp [nameIdx]
  | cons e rest ih =>
    have hne : (entryName e == m) = false := by
      by_contra hc
      have : entryName e = m := by
        have := Bool.of_not_eq_false hc
        simpa using this
      simp [containsName, this] at h
    have hr : containsName rest m = false := by
      simp only [containsName, List.any_cons, Bool.or_eq_false_iff] at h
      exact h.2
    simp [nameIdx, hne, ih hr, Nat.succ_add]

/-- Every sibling reference of every entry of a constructed level resolves
within the level, at a strictly earlier first-name index (edges point
backwards in addition order). -/
theorem built_refs_earlier {g : List GraphEntry} (hb : Built g) :
    ∀ e, e ∈ g → ∀ m, m ∈ nodeRefs (entryInputs e) →
      containsName g m = true ∧ nameIdx g m < nameIdx g (entryName e) := by
  induction hb with
  | nil => intro e he; simp at he
  | @snoc g g' name inputs n isOut hb hadd ih =>
    obtain ⟨hdup, hall, rfl⟩ := add_node_ok_elim hadd
    intro e he m hm
    rcases List.mem_append.mp he with he | he
    · obtain ⟨hc, hlt⟩ := ih e he m hm
      have hce : containsName g (entryName e) = true :=
        (containsName_iff g (entryName e)).mpr ⟨e, he, rfl⟩
      refine ⟨containsName_append _ _ _ hc, ?_⟩
      rw [nameIdx_append_of_contains _ _ _ hc, nameIdx_append_of_contains _ _ _ hce]
      exact hlt
    · have he' : e = (name, inputs, n, isOut) := by simpa using he
      subst he'
      have hin : InputRef.node m ∈ inputs := (mem_nodeRefs_iff _ _).mp hm
      have hres : resolvesIn g (.node m) = true := by
        rw [List.all_eq_true] at hall
        exact hall _ hin
      have hc : containsName g m = true := by simpa [resolvesIn] using hres
      refine ⟨containsName_append _ _ _ hc, ?_⟩
      rw [nameIdx_append_of_contains _ _ _ hc,
        nameIdx_append_of_not_contains _ _ _ (by simpa using hdup)]
      have : nameIdx [((name : String), inputs, n, isOut)] name = 0 := by
        simp [nameIdx, entryName]
      rw [show entryName ((name, inputs, n, isOut) : GraphEntry) = name from rfl, this,
        Nat.add_zero]
      exact nameIdx_lt_length g m hc

/-- Along any reference path of a constructed level, the first-name index
strictly decreases. -/
theorem refPath_idx_lt {g : List GraphEntry} (hb : Built g) {a b : String}
    (hp : RefPath g a b) : nameIdx g b < nameIdx g a := by
  induction hp with
  | edge e he hname hm =>
    have := (built_refs_earlier hb e he _ hm).2
    rwa [hname] at this
  | trans p q ihp ihq => exact Nat.lt_trans ihq ihp

/-- C3: no graph reachable by `add_node` calls has a cyclic input-reference
chain — an attempt to construct a cycle necessarily hits a failing
`add_node`, every `add_node` failure is a `GraphConstructionError` (raised at
build time, before any task runs), and a failing call adds zero nodes: the
level is returned exactly as it was. -/
theorem cyclic_construction_rejected :
    (∀ g, Built g → ∀ a, ¬ RefPath g a a) ∧
    (∀ g name inputs n isOut err,
        add_node g name inputs n isOut = .error err →
        ∃ msg, err = .GraphConstructionError msg) ∧
    (∀ g name inputs n isOut g' err,
        try_add_node g name inputs n isOut = (g', some err) →
        g' = g ∧ ∃ msg, err = .GraphConstructionError msg) := by
  have herr : ∀ g name inputs n isOut err,
      add_node g name inputs n isOut = .error err →
      ∃ msg, err = .GraphConstructionError msg := by
    intro g name inputs n isOut err h
    by_cases hdup : containsName g name
    · refine ⟨"duplicate node name: " ++ name, ?_⟩
      simp only [add_node, hdup, if_true] at h
      cases h; rfl
    · by_cases hall : inputs.all (resolvesIn g)
      · simp [add_node, hdup, hall] at h
      · refine ⟨"unresolved input reference for node: " ++ name, ?_⟩
        simp only [add_node, hdup, hall, Bool.false_eq_true, if_false] at h
        cases h; rfl
  refine ⟨fun g hb a hp => ?_, herr, fun g name inputs n isOut g' err h => ?_⟩
  · exact Nat.lt_irrefl _ (refPath_idx_lt hb hp)
  · rw [try_add_node] at h
    cases hadd : add_node g name inputs n isOut with
    | ok g'' => rw [hadd] at h; cases h
    | error e =>
      rw [hadd] at h
      cases h
      exact ⟨rfl, herr g name inputs n isOut _ hadd⟩

/-- The spec's chain level is constructible. -/
theorem built_chainABC : Built chainABC := by
  have h1 : add_node [] "A" [.ext "query"] nodeA false
      = .ok [("A", [.ext "query"], nodeA, false)] := rfl
  have h2 : add_node [("A", [.ext "query"], nodeA, false)] "B" [.node "A"] nodeB false
      = .ok [("A", [.ext "query"], nodeA, false), ("B", [.node "A"], nodeB, false)] := rfl
  have h3 : add_node [("A", [.ext "query"], nodeA, false),
        ("B", [.node "A"], nodeB, false)] "C" [.node "B"] nodeC true
      = .ok chainABC := rfl
  exact Built.snoc (Built.snoc (Built.snoc Built.nil h1) h2) h3

/-- Witness for C3: the constructed chain has no cycle through `"A"`, and an
attempted self-cycle is rejected with a `GraphConstructionError`, adding
zero nodes. -/
theorem cyclic_construction_rejected_witness :
    (¬ RefPath chainABC "A" "A") ∧
    (∃ msg, LLMError.GraphConstructionError "unresolved input reference for node: self"
        = .GraphConstructionError msg) ∧
    (([] : List GraphEntry) = [] ∧
      ∃ msg, LLMError.GraphConstructionError "unresolved input reference for node: self"
        = .GraphConstructionError msg) :=
  ⟨cyclic_construction_rejected.1 chainABC built_chainABC "A",
   cyclic_construction_rejected.2.1 [] "self" [.node "self"] nodeA false
     (.GraphConstructionError "unresolved input reference for node: self") rfl,
   cyclic_construction_rejected.2.2 [] "self" [.node "self"] nodeA false []
     (.GraphConstructionError "unresolved input reference for node: self") rfl⟩

/-! ### C1 -/

/-- Every sibling reference of an entry launched in round `i` was already
done before the round: it is in the initial done set or completed in a round
`< i`. -/
theorem kahnRounds_refs_done :
    ∀ fuel done remaining i r e m,
      (kahnRounds fuel done remaining)[i]? = some r → e ∈ r →
      m ∈ nodeRefs (entryInputs e) →
      m ∈ done ∨
        m ∈ (((kahnRounds fuel done remaining).take i).flatten.map entryName) := by
  intro fuel
  induction fuel with
  | zero => intro done remaining i r e m h; simp [kahnRounds] at h
  | succ fuel ih =>
    intro done remaining i r e m h he hm
    rw [kahnRounds] at h ⊢
    by_cases hemp : (remaining.filter (eligible done)).isEmpty
    · simp [hemp] at h
    · simp only [hemp, if_false, Bool.false_eq_true] at h ⊢
      cases i with
      | zero =>
        simp only [List.getElem?_cons_zero, Option.some_inj] at h
        subst h
        have helig : eligible done e = true := List.of_mem_filter he
        rw [eligible, List.all_eq_true] at helig
        exact Or.inl (by simpa using helig m hm)
      | succ i =>
        simp only [List.getElem?_cons_succ] at h
        rcases ih _ _ i r e m h he hm with hd | hd
        · rcases List.mem_append.mp hd with hd | hd
          · exact Or.inl hd
          · exact Or.inr (by
              simp only [List.take_succ_cons, List.flatten_cons, List.map_append]
              exact List.mem_append_left _ hd)
        · exact Or.inr (by
            simp only [List.take_succ_cons, List.flatten_cons, List.map_append]
            exact List.mem_append_right _ hd)

/-- A name occurring among the entries of the first `i` rounds is first found
in a round `< i`. -/
theorem roundOfAux_lt_of_mem_take :
    ∀ (rs : List (List GraphEntry)) i m,
      m ∈ ((rs.take i).flatten.map entryName) →
      ∃ j, roundOfAux rs m = some j ∧ j < i := by
  intro rs
  induction rs with
  | nil => intro i m h; simp at h
  | cons r rs ih =>
    intro i m h
    cases i with
    | zero => simp at h
    | succ i =>
      simp only [List.take_succ_cons, List.flatten_cons, List.map_append,
        List.mem_append] at h
      by_cases hc : containsName r m
      · exact ⟨0, by simp [roundOfAux, hc], Nat.succ_pos i⟩
      · have hmr : m ∉ r.map entryName := by
          intro hmem
          rcases List.mem_map.mp hmem with ⟨e, he, hn⟩
          exact absurd ((containsName_iff r m).mpr ⟨e, he, hn⟩) (by simpa using hc)
        rcases h with h | h
        · exact absurd h hmr
        · rcases ih i m h with ⟨j, hj, hlt⟩
          exact ⟨j + 1, by simp [roundOfAux, hc, hj], Nat.succ_lt_succ hlt⟩

/-- The round `roundOfAux` points at indeed carries the name. -/
theorem roundOfAux_mem :
    ∀ (rs : List (List GraphEntry)) m j, roundOfAux rs m = some j →
      ∃ r, rs[j]? = some r ∧ containsName r m = true := by
  intro rs
  induction rs with
  | nil => intro m j h; simp [roundOfAux] at h
  | cons r rs ih =>
    intro m j h
    by_cases hc : containsName r m
    · simp only [roundOfAux, hc, if_true, Option.some_inj] at h
      subst h
      exact ⟨r, by simp, hc⟩
    · simp only [roundOfAux, hc, Bool.false_eq_true, if_false, Option.map_eq_some'] at h
      rcases h with ⟨j', hj', rfl⟩
      rcases ih m j' hj' with ⟨r', hr', hc'⟩
      exact ⟨r', by simpa using hr', hc'⟩

/-- Entries of any round come from the remaining set the rounds were built
from. -/
theorem kahnRounds_mem :
    ∀ (fuel : Nat) (done : List String) (remaining : List GraphEntry)
      (i : Nat) (r : List GraphEntry) (e : GraphEntry),
      (kahnRounds fuel done remaining)[i]? = some r → e ∈ r → e ∈ remaining := by
  intro fuel
  induction fuel with
  | zero => intro done remaining i r e h; simp [kahnRounds] at h
  | succ fuel ih =>
    intro done remaining i r e h he
    rw [kahnRounds] at h
    by_cases hemp : (remaining.filter (eligible done)).isEmpty
    · simp [hemp] at h
    · simp only [hemp, if_false, Bool.false_eq_true] at h
      cases i with
      | zero =>
        simp only [List.getElem?_cons_zero, Option.some_inj] at h
        subst h
        exact List.mem_of_mem_filter he
      | succ i =>
        simp only [List.getElem?_cons_succ] at h
        exact List.mem_of_mem_filter (ih _ _ i r e h he)

/-- Distinct entries of a level with pairwise-distinct names are determined
by their name. -/
theorem name_inj_of_nodup :
    ∀ g : List GraphEntry, NamesNodup g →
      ∀ e, e ∈ g → ∀ e', e' ∈ g → entryName e = entryName e' → e = e' := by
  intro g
  induction g with
  | nil => intro _ e he; simp at he
  | cons x g ih =>
    intro hn e he e' he' hname
    have hn' : entryName x ∉ List.map entryName g ∧ (List.map entryName g).Nodup := by
      rw [NamesNodup, List.map_cons, List.nodup_cons] at hn
      exact hn
    rcases List.mem_cons.mp he with he | he
    · rcases List.mem_cons.mp he' with he' | he'
      · rw [he, he']
      · exfalso
        have hmem := List.mem_map_of_mem entryName he'
        rw [← hname, he] at hmem
        exact hn'.1 hmem
    · rcases List.mem_cons.mp he' with he' | he'
      · exfalso
        have hmem := List.mem_map_of_mem entryName he
        rw [hname, he'] at hmem
        exact hn'.1 hmem
      · exact ih hn'.2 e he e' he' hname

/-- C1: for every level with unique node names and every dependency edge from
a producer to a consumer, the scheduler's rounds place the producer's
completion strictly before the consumer's start: the producer's completion
timestamp (`2·round + 1`) is less than the consumer's start timestamp
(`2·round`), so the consumer never starts before all its declared producers
have completed and written their outputs. -/
theorem producer_completes_before_consumer_starts :
    ∀ entries c p ts tc,
      NamesNodup entries →
      EdgeTo entries c p →
      startTime entries c = some ts →
      completionTime entries p = some tc →
      tc < ts := by
  intro entries c p ts tc hnodup hedge hs hc
  rcases hedge with ⟨e, hein, hename, hp⟩
  cases hroc : roundOf entries c with
  | none => simp [startTime, hroc] at hs
  | some i =>
  cases hrop : roundOf entries p with
  | none => simp [completionTime, hrop] at hc
  | some j =>
  have hts : ts = 2 * i := by
    rw [startTime, hroc] at hs
    simpa using hs.symm
  have htc : tc = 2 * j + 1 := by
    rw [completionTime, hrop] at hc
    simpa using hc.symm
  subst hts htc
  rw [roundOf] at hroc hrop
  rcases roundOfAux_mem _ _ _ hroc with ⟨r, hr, hcont⟩
  rcases (containsName_iff r c).mp hcont with ⟨e', he'r, he'name⟩
  rw [rounds] at hr hrop
  have he'in : e' ∈ entries := kahnRounds_mem _ _ _ _ _ _ hr he'r
  have hee : e' = e :=
    name_inj_of_nodup entries hnodup e' he'in e hein (he'name.trans hename.symm)
  subst hee
  rcases kahnRounds_refs_done _ _ _ _ _ _ _ hr he'r hp with hd | hd
  · simp at hd
  · rcases roundOfAux_lt_of_mem_take _ _ _ hd with ⟨j', hj', hlt⟩
    have hjj : j = j' := Option.some_inj.mp (hrop.symm.trans hj')
    subst hjj
    omega

/-- Witness for C1 on the spec's chain level: the edge `B → A` has
`completionTime A = 1 < 2 = startTime B`. -/
theorem producer_completes_before_consumer_starts_witness :
    NamesNodup chainABC ∧ EdgeTo chainABC "B" "A" ∧
    startTime chainABC "B" = some 2 ∧ completionTime chainABC "A" = some 1 ∧
    (1 : Nat) < 2 :=
  have hedge : EdgeTo chainABC "B" "A" :=
    ⟨("B", [.node "A"], nodeB, false), by simp [chainABC], rfl,
      by simp [nodeRefs, entryInputs]⟩
  ⟨by decide, hedge, rfl, rfl,
   producer_completes_before_consumer_starts chainABC "B" "A" 2 1 (by decide) hedge rfl rfl⟩

/-! ### C2 -/

/-- A failing level run splits the schedule: an executed-and-merged prefix, a
failing entry whose error is the level's error, and an abandoned remainder
never started. -/
theorem runSchedWith_error_split :
    ∀ (f : String → List LLMVal → LLMNode → Except LLMError LLMVal) (env : Ctx)
      (sched : List GraphEntry) (ctx : Ctx) (log : List String) (err : LLMError),
      runSchedWith f env sched ctx = (log, .error err) →
      ∃ pre b rest ctx',
        sched = pre ++ b :: rest ∧
        log = (pre ++ [b]).map entryName ∧
        runSchedWith f env pre ctx = (pre.map entryName, .ok ctx') ∧
        execEntryWith f env ctx' b = .error err := by
  intro f env sched
  induction sched with
  | nil =>
    intro ctx log err h
    simp [runSchedWith] at h
  | cons e rest ih =>
    intro ctx log err h
    cases hres : execEntryWith f env ctx e with
    | error e' =>
      rw [runSchedWith, hres] at h
      obtain ⟨hlog, herr⟩ := Prod.mk.injEq .. ▸ h
      cases herr
      exact ⟨[], e, rest, ctx, rfl, by simpa using hlog.symm, rfl, hres⟩
    | ok ctx1 =>
      rcases hrec : runSchedWith f env rest ctx1 with ⟨log', res'⟩
      rw [runSchedWith, hres] at h
      dsimp only at h
      rw [hrec] at h
      dsimp only at h
      obtain ⟨hlog, herr⟩ := Prod.mk.injEq .. ▸ h
      rcases ih ctx1 log' err (by rw [hrec, ← herr]) with ⟨pre', b, rest', ctx', hsched, hlog', hrun, hexec⟩
      refine ⟨e :: pre', b, rest', ctx', by rw [List.cons_append, hsched],
        by simp [← hlog, hlog'], ?_, hexec⟩
      rw [runSchedWith, hres]
      dsimp only
      rw [hrun]
      simp

/-- A leaf body failure surfaces as `NodeExecutionError` naming the node, at
any fuel. -/
theorem execNode_leaf_error (fuel : Nat) (nm : String) (vals : List LLMVal)
    (nms : List String) (f : List LLMVal → Except String LLMVal) (msg : String)
    (hf : f vals = .error msg) :
    execNode fuel nm vals (.leaf nms f) = .error (.NodeExecutionError nm) := by
  cases fuel with
  | zero => rfl
  | succ fuel => simp [execNode, hf]

/-- An entry whose resolved inputs are available but whose leaf body raises
fails with `NodeExecutionError` naming the entry. -/
theorem execEntry_leaf_error :
    ∀ (fuel : Nat) (env ctx : Ctx) (e : GraphEntry) (nms : List String)
      (f : List LLMVal → Except String LLMVal) (vals : List LLMVal) (msg : String),
      entryNode e = .leaf nms f →
      get_inputs env ctx (entryInputs e) = .ok vals →
      f vals = .error msg →
      execEntry fuel env ctx e = .error (.NodeExecutionError (entryName e)) := by
  intro fuel env ctx e nms f vals msg hnode hins hf
  simp [execEntry, execEntryWith, hins, hnode,
    execNode_leaf_error fuel (entryName e) vals nms f msg hf, Bind.bind, Except.bind]

/-- Everything scheduled comes from the remaining set. -/
theorem kahnRounds_flatten_mem :
    ∀ (fuel : Nat) (done : List String) (remaining : List GraphEntry) (e : GraphEntry),
      e ∈ (kahnRounds fuel done remaining).flatten → e ∈ remaining := by
  intro fuel
  induction fuel with
  | zero => intro done remaining e h; simp [kahnRounds] at h
  | succ fuel ih =>
    intro done remaining e h
    rw [kahnRounds] at h
    by_cases hemp : (remaining.filter (eligible done)).isEmpty
    · simp [hemp] at h
    · simp only [hemp, if_false, Bool.false_eq_true, List.flatten_cons,
        List.mem_append] at h
      rcases h with h | h
      · exact List.mem_of_mem_filter h
      · exact List.mem_of_mem_filter (ih _ _ e h)

/-- Scheduling a level with pairwise-distinct names yields rounds whose
entries, taken together, still have pairwise-distinct names. -/
theorem kahnRounds_flatten_names_nodup :
    ∀ (fuel : Nat) (done : List String) (remaining : List GraphEntry),
      NamesNodup remaining →
      ((kahnRounds fuel done remaining).flatten.map entryName).Nodup := by
  intro fuel
  induction fuel with
  | zero => intro done remaining _; simp [kahnRounds]
  | succ fuel ih =>
    intro done remaining hn
    rw [kahnRounds]
    by_cases hemp : (remaining.filter (eligible done)).isEmpty
    · simp [hemp]
    · simp only [hemp, if_false, Bool.false_eq_true, List.flatten_cons, List.map_append]
      have helig : ((remaining.filter (eligible done)).map entryName).Nodup :=
        hn.sublist ((List.filter_sublist remaining).map entryName)
      have hrest : NamesNodup (remaining.filter (fun e => !eligible done e)) :=
        hn.sublist ((List.filter_sublist remaining).map entryName)
      have hrec := ih (done ++ (remaining.filter (eligible done)).map entryName)
        (remaining.filter (fun e => !eligible done e)) hrest
      refine helig.append hrec ?_
      intro x hx1 hx2
      rcases List.mem_map.mp hx1 with ⟨e1, he1, hn1⟩
      rcases List.mem_map.mp hx2 with ⟨e2, he2, hn2⟩
      have he2' : e2 ∈ remaining.filter (fun e => !eligible done e) :=
        kahnRounds_flatten_mem _ _ _ _ he2
      have hmem1 : e1 ∈ remaining := List.mem_of_mem_filter he1
      have hmem2 : e2 ∈ remaining := List.mem_of_mem_filter he2'
      have hee : e1 = e2 := name_inj_of_nodup remaining hn e1 hmem1 e2 hmem2
        (hn1.trans hn2.symm)
      subst hee
      have h1 : eligible done e1 = true := List.of_mem_filter he1
      have h2 := List.of_mem_filter he2'
      simp only [h1] at h2
      cases h2

/-- With pairwise-distinct names across the rounds, the round containing an
entry is exactly the round its name is first found in. -/
theorem roundOfAux_eq_of_mem :
    ∀ (rs : List (List GraphEntry)) (i : Nat) (r : List GraphEntry) (b : GraphEntry),
      ((rs.flatten).map entryName).Nodup →
      rs[i]? = some r → b ∈ r → roundOfAux rs (entryName b) = some i := by
  intro rs
  induction rs with
  | nil => intro i r b _ h; simp at h
  | cons r0 rs ih =>
    intro i r b hn h hb
    cases i with
    | zero =>
      simp only [List.getElem?_cons_zero, Option.some_inj] at h
      subst h
      simp [roundOfAux, (containsName_iff r0 (entryName b)).mpr ⟨b, hb, rfl⟩]
    | succ i =>
      simp only [List.getElem?_cons_succ] at h
      simp only [List.flatten_cons, List.map_append] at hn
      have hc0 : containsName r0 (entryName b) = false := by
        by_contra hc
        have hc' : containsName r0 (entryName b) = true := by
          simpa using Bool.of_not_eq_false hc
        rcases (containsName_iff _ _).mp hc' with ⟨e0, he0, hn0⟩
        have hname0 : entryName b ∈ r0.map entryName := hn0 ▸ List.mem_map_of_mem entryName he0
        have hr : r ∈ rs := List.getElem?_mem h
        have hbf : b ∈ rs.flatten := List.mem_flatten.mpr ⟨r, hr, hb⟩
        have hname1 : entryName b ∈ rs.flatten.map entryName := List.mem_map_of_mem entryName hbf
        exact List.disjoint_of_nodup_append hn hname0 hname1
      have := ih i r b (hn.sublist (List.sublist_append_right _ _)) h hb
      simp [roundOfAux, hc0, this]

/-- A split of a flattened round list locates the split point inside one
round, with the whole executed prefix inside the rounds up to it. -/
theorem flatten_split_round :
    ∀ (rs : List (List GraphEntry)) (pre : List GraphEntry) (b : GraphEntry)
      (rest : List GraphEntry),
      rs.flatten = pre ++ b :: rest →
      ∃ i r, rs[i]? = some r ∧ b ∈ r ∧
        ∀ x, x ∈ pre ++ [b] → x ∈ (rs.take (i + 1)).flatten := by
  intro rs
  induction rs with
  | nil =>
    intro pre b rest h
    have := congrArg List.length h
    simp at this
    omega
  | cons r0 rs ih =>
    intro pre b rest h
    rw [List.flatten_cons] at h
    by_cases hlen : pre.length < r0.length
    · have hb : r0[pre.length]? = some b := by
        have h1 := congrArg (fun l => l[pre.length]?) h
        simp only at h1
        rw [List.getElem?_append_left hlen] at h1
        rw [List.getElem?_append_right (Nat.le_refl pre.length)] at h1
        simpa using h1
      have hpre : r0.take pre.length = pre := by
        have h1 := congrArg (fun l => l.take pre.length) h
        simp only at h1
        rw [List.take_append_of_le_length (Nat.le_of_lt hlen)] at h1
        rw [List.take_append_of_le_length (Nat.le_refl pre.length)] at h1
        simpa using h1
      refine ⟨0, r0, by simp, List.getElem?_mem hb, ?_⟩
      intro x hx
      simp only [List.take_succ_cons, List.take_zero, List.flatten_cons,
        List.flatten_nil, List.append_nil]
      rcases List.mem_append.mp hx with hx | hx
      · exact List.take_subset pre.length r0 (by rw [hpre]; exact hx)
      · rw [List.mem_singleton] at hx
        subst hx
        exact List.getElem?_mem hb
    · push_neg at hlen
      have htake : r0 = pre.take r0.length := by
        have h1 := congrArg (fun l => l.take r0.length) h
        simp only at h1
        rw [List.take_left] at h1
        rw [List.take_append_of_le_length hlen] at h1
        exact h1
      have hdrop : rs.flatten = pre.drop r0.length ++ b :: rest := by
        have h1 := congrArg (fun l => l.drop r0.length) h
        simp only at h1
        rw [List.drop_left] at h1
        rw [List.drop_append_of_le_length hlen] at h1
        exact h1
      rcases ih (pre.drop r0.length) b rest hdrop with ⟨i, r, hri, hbr, hsub⟩
      refine ⟨i + 1, r, by simpa using hri, hbr, ?_⟩
      intro x hx
      simp only [List.take_succ_cons, List.flatten_cons, List.mem_append]
      have hxsplit : x ∈ r0 ++ (pre.drop r0.length ++ [b]) := by
        have : pre = r0 ++ pre.drop r0.length := by
          conv_lhs => rw [← List.take_append_drop r0.length pre, ← htake]
        rcases List.mem_append.mp hx with hx | hx
        · rw [this] at hx
          rcases List.mem_append.mp hx with hx | hx
          · exact List.mem_append_left _ hx
          · exact List.mem_append_right _ (List.mem_append_left _ hx)
        · exact List.mem_append_right _ (List.mem_append_right _ hx)
      rcases List.mem_append.mp hxsplit with hx' | hx'
      · exact Or.inl hx'
      · exact Or.inr (hsub x hx')

/-- C2: if a child node fails during a level's execution, the executor
abandons every entry scheduled after it — the started log is exactly the
schedule prefix through the failing entry `b`, so the in-flight round's later
siblings and all later rounds never run; in particular every node scheduled in
a strictly later round than `b` (which includes every downstream consumer of
`b`, by C1) never executes; if `b` is a leaf whose external call raised, the
propagated error is `NodeExecutionError` referencing `b`; and the engine's
`run` surfaces exactly that error instead of partial results. -/
theorem node_failure_fail_fast :
    (∀ (fuel : Nat) (env : Ctx) (entries : List GraphEntry) (ctx : Ctx)
        (log : List String) (err : LLMError),
        NamesNodup entries →
        execLevel fuel env entries ctx = (log, .error err) →
        ∃ pre b rest ctx',
          schedule entries = pre ++ b :: rest ∧
          log = (pre ++ [b]).map entryName ∧
          runSchedWith (execNode fuel) env pre ctx = (pre.map entryName, .ok ctx') ∧
          execEntry fuel env ctx' b = .error err ∧
          (∀ nms f vals msg, entryNode b = .leaf nms f →
              get_inputs env ctx' (entryInputs b) = .ok vals → f vals = .error msg →
              err = .NodeExecutionError (entryName b)) ∧
          (∀ m jm jb, roundOf entries m = some jm →
              roundOf entries (entryName b) = some jb → jb < jm → m ∉ log)) ∧
    (∀ (flag : Bool) (fuel : Nat) (eng : LLMEngine) (env : Ctx) (task : TaskRec)
        (log : List String) (err : LLMError),
        execLevel fuel env eng.root [] = (log, .error err) →
        runEngine false flag fuel eng env task = .error err) := by
  constructor
  · intro fuel env entries ctx log err hnodup hrun
    rcases runSchedWith_error_split (execNode fuel) env (schedule entries) ctx log err hrun
      with ⟨pre, b, rest, ctx', hsched, hlog, hpre, hexec⟩
    refine ⟨pre, b, rest, ctx', hsched, hlog, hpre, hexec, ?_, ?_⟩
    · intro nms f vals msg hnode hins hf
      have hE := execEntry_leaf_error fuel env ctx' b nms f vals msg hnode hins hf
      rw [execEntry] at hE
      have hEE := hexec.symm.trans hE
      exact Except.error.injEq .. ▸ hEE
    · intro m jm jb hm hb hlt hmem
      have hnodupflat : ((rounds entries).flatten.map entryName).Nodup := by
        rw [rounds]
        exact kahnRounds_flatten_names_nodup entries.length [] entries hnodup
      have hsched' : (rounds entries).flatten = pre ++ b :: rest := hsched
      rcases flatten_split_round (rounds entries) pre b rest hsched' with ⟨i, r, hri, hbr, hsub⟩
      have hbround : roundOfAux (rounds entries) (entryName b) = some i :=
        roundOfAux_eq_of_mem (rounds entries) i r b hnodupflat hri hbr
      have hjb : jb = i := by
        rw [roundOf] at hb
        exact Option.some_inj.mp (hb.symm.trans hbround)
      rw [hlog] at hmem
      rcases List.mem_map.mp hmem with ⟨x, hx, hxname⟩
      have hxtake : x ∈ ((rounds entries).take (i + 1)).flatten := hsub x hx
      have hmtake : m ∈ (((rounds entries).take (i + 1)).flatten.map entryName) :=
        hxname ▸ List.mem_map_of_mem entryName hxtake
      rcases roundOfAux_lt_of_mem_take (rounds entries) (i + 1) m hmtake with ⟨j', hj', hjlt⟩
      have hjm : jm = j' := by
        rw [roundOf] at hm
        exact Option.some_inj.mp (hm.symm.trans hj')
      omega
  · intro flag fuel eng env task log err h
    have h2 : (execLevel fuel env eng.root []).2 = .error err := by rw [h]
    simp [runEngine, h2]

/-- Witness for C2 on the spec's failure scenario (`A → B → C`, `B`'s
external call raises): the log stops at `B`, the error is
`NodeExecutionError "B"`, and the engine's run surfaces it. -/
theorem node_failure_fail_fast_witness :
    (∃ pre b rest ctx',
        schedule chainABC = pre ++ b :: rest ∧
        ["A", "B"] = (pre ++ [b]).map entryName ∧
        runSchedWith (execNode 3) [("query", LLMVal.vStr "hello")] pre []
          = (pre.map entryName, .ok ctx') ∧
        execEntry 3 [("query", LLMVal.vStr "hello")] ctx' b
          = .error (.NodeExecutionError "B") ∧
        (∀ nms f vals msg, entryNode b = .leaf nms f →
            get_inputs [("query", LLMVal.vStr "hello")] ctx' (entryInputs b) = .ok vals →
            f vals = .error msg →
            LLMError.NodeExecutionError "B" = .NodeExecutionError (entryName b)) ∧
        (∀ m jm jb, roundOf chainABC m = some jm →
            roundOf chainABC (entryName b) = some jb → jb < jm → m ∉ ["A", "B"])) ∧
    runEngine false false 3 { root := chainABC, handlers := [] }
        [("query", LLMVal.vStr "hello")] []
      = .error (.NodeExecutionError "B") :=
  ⟨node_failure_fail_fast.1 3 [("query", LLMVal.vStr "hello")] chainABC []
      ["A", "B"] (.NodeExecutionError "B") (by decide) rfl,
   node_failure_fail_fast.2 false 3 { root := chainABC, handlers := [] }
      [("query", LLMVal.vStr "hello")] [] ["A", "B"] (.NodeExecutionError "B") rfl⟩

end Morpheus
